import Mathlib

/-!
Verification of the elmesque 2D graphics library.

Shallow embedding conventions:
* `f64` values (geometry, transforms, text metrics) are modelled as exact
  rationals `ℚ`; the trigonometric functions `cos`/`sin` used by
  `transform_2d::rotation` are external math-library calls and are threaded
  through as function parameters `tcos tsin : ℚ → ℚ`.
* `f32` values (everything in `color.rs`) are modelled as `F := Option ℚ`,
  where `none` stands for IEEE NaN.  Division by zero in `color.rs` only
  ever occurs with a zero numerator (`0/0`, which is NaN); the model maps
  every division by zero to `none` accordingly.  Arithmetic on `none`
  propagates (as NaN does), and every IEEE comparison involving NaN is
  false.
* `u8`/`i32`/`i64` are `ℕ`/`ℤ`; `PathBuf` is an opaque token type.
-/

namespace Elmesque

/-- Model of an `f32` value: `some q` is the (exactly represented) real
value `q`, `none` is IEEE NaN. -/
abbrev F : Type := Option ℚ

def Fadd : F → F → F
  | some a, some b => some (a + b)
  | _, _ => none

def Fsub : F → F → F
  | some a, some b => some (a - b)
  | _, _ => none

def Fmul : F → F → F
  | some a, some b => some (a * b)
  | _, _ => none

/-- IEEE division; in `color.rs` the denominator is zero only when the
numerator is zero as well, so `x/0` is modelled as NaN (`0/0` is NaN). -/
def Fdiv : F → F → F
  | some a, some b => if b = 0 then none else some (a / b)
  | _, _ => none

def Fabs : F → F
  | some a => some |a|
  | none => none

def Ffloor : F → F
  | some a => some (⌊a⌋ : ℚ)
  | none => none

/-- IEEE `<`: false whenever an operand is NaN. -/
def Flt : F → F → Bool
  | some a, some b => decide (a < b)
  | _, _ => false

/-- IEEE `<=`: false whenever an operand is NaN. -/
def Fle : F → F → Bool
  | some a, some b => decide (a ≤ b)
  | _, _ => false

/-- IEEE `>=`: false whenever an operand is NaN. -/
def Fge (a b : F) : Bool := Fle b a

/-- IEEE `==`: false whenever an operand is NaN. -/
def Feq : F → F → Bool
  | some a, some b => decide (a = b)
  | _, _ => false

/-- `utils::max`: `if a >= b { a } else { b }`. -/
def FmaxU (a b : F) : F := if Fge a b then a else b

/-- `utils::min`: `if a <= b { a } else { b }`. -/
def FminU (a b : F) : F := if Fle a b then a else b

/-- `utils::modulo` on integers, with Rust `%` (truncated remainder):
`match a % b { r if (r>0 && b<0) || (r<0 && b>0) => r + b, r => r }`. -/
def moduloZ (a b : ℤ) : ℤ :=
  let r := Int.tmod a b
  if (0 < r ∧ b < 0) ∨ (r < 0 ∧ 0 < b) then r + b else r

/-- `utils::fmod(f, n)` on a non-NaN input:
`let i = f.floor() as i32; modulo(i, n) as f32 + f - i as f32`
(the `as i32` saturation is irrelevant for the small values arising here). -/
def fmodQ (f : ℚ) (n : ℤ) : ℚ := (moduloZ ⌊f⌋ n : ℚ) + f - (⌊f⌋ : ℚ)

/-- `utils::fmod` lifted to `F`.  For NaN input: `NaN.floor()` is NaN,
`NaN as i32` is `0`, `modulo(0, n) = 0`, and `0 + NaN - 0` is NaN. -/
def FfmodI : F → ℤ → F
  | some q, n => some (fmodQ q n)
  | none, _ => none

/-- The `f32` constant `std::f32::consts::PI` (bit pattern `0x40490FDB`),
as an exact rational. -/
def pi32 : ℚ := 13176795 / 4194304

/-- `utils::degrees` at `f32`: `d * (PI / 180.0)`. -/
def degQ (d : ℚ) : ℚ := d * (pi32 / 180)

/-- `utils::turns` at `f32`: `(2.0 * PI) * t`. -/
def turnsQ (t : ℚ) : ℚ := (2 * pi32) * t

/-- `utils::max` on plain rationals. -/
def maxQ (a b : ℚ) : ℚ := if b ≤ a then a else b

/-- `utils::min` on plain rationals. -/
def minQ (a b : ℚ) : ℚ := if a ≤ b then a else b

/-- Rust `f32::round`: round half away from zero. -/
def rustRound (q : ℚ) : ℤ := if 0 ≤ q then ⌊q + 1/2⌋ else -⌊-q + 1/2⌋

/-- A Rust float-to-`u8` `as` cast after `round()`: NaN goes to `0`,
otherwise the result saturates into `[0, 255]`. -/
def roundByte : F → ℕ
  | none => 0
  | some q =>
    let r := rustRound q
    if r < 0 then 0 else if 255 < r then 255 else r.toNat

/-- `color::Color`: `Rgba(u8, u8, u8, f32)` or `Hsla(f32, f32, f32, f32)`. -/
inductive Color : Type where
  | Rgba (r g b : ℕ) (a : F)
  | Hsla (h s l a : F)
deriving DecidableEq

/-- `color::hsla`: the hue is normalized by
`hue - turns((hue / (2.0 * PI)).floor())` before being stored. -/
def hsla (hue saturation lightness alpha : F) : Color :=
  Color.Hsla
    (Fsub hue (Fmul (some (2 * pi32)) (Ffloor (Fdiv hue (some (2 * pi32))))))
    saturation lightness alpha

/-- `color::hsl`. -/
def hsl (hue saturation lightness : F) : Color := hsla hue saturation lightness (some 1)

/-- `color::rgb_to_hsl`, faithfully over NaN-aware `f32` values.  The inputs
are `u8` bytes, first divided by `255.0`. -/
def rgb_to_hsl (red green blue : ℕ) : F × F × F :=
  let r := Fdiv (some (red : ℚ)) (some 255)
  let g := Fdiv (some (green : ℚ)) (some 255)
  let b := Fdiv (some (blue : ℚ)) (some 255)
  let c_max := FmaxU (FmaxU r g) b
  let c_min := FminU (FminU r g) b
  let c := Fsub c_max c_min
  let hue := Fmul (some (degQ 60))
    (if Feq c_max r then FfmodI (Fdiv (Fsub g b) c) 6
     else if Feq c_max g then Fadd (Fdiv (Fsub b r) c) (some 2)
     else Fadd (Fdiv (Fsub r g) c) (some 4))
  let lightness := Fdiv (Fadd c_max c_min) (some 2)
  let saturation :=
    if Feq lightness (some 0) then some 0
    else Fdiv c (Fsub (some 1) (Fabs (Fsub (Fmul (some 2) lightness) (some 1))))
  (hue, saturation, lightness)

/-- `color::hsl_to_rgb`, faithfully over NaN-aware `f32` values. -/
def hsl_to_rgb (hue saturation lightness : F) : F × F × F :=
  let chroma := Fmul (Fsub (some 1) (Fabs (Fsub (Fmul (some 2) lightness) (some 1)))) saturation
  let h := Fdiv hue (some (degQ 60))
  let x := Fmul chroma (Fsub (some 1) (Fabs (Fsub (FfmodI h 2) (some 1))))
  let rgb :=
    if Flt h (some 0) then (some (0:ℚ), some (0:ℚ), some (0:ℚ))
    else if Flt h (some 1) then (chroma, x, some 0)
    else if Flt h (some 2) then (x, chroma, some 0)
    else if Flt h (some 3) then (some 0, chroma, x)
    else if Flt h (some 4) then (some 0, x, chroma)
    else if Flt h (some 5) then (x, some 0, chroma)
    else if Flt h (some 6) then (chroma, some 0, x)
    else (some 0, some 0, some 0)
  let m := Fsub lightness (Fdiv chroma (some 2))
  (Fadd rgb.1 m, Fadd rgb.2.1 m, Fadd rgb.2.2 m)

/-- `Color::complement`: rotate the hue by `degrees(180.0)` through `hsla`. -/
def complement (c : Color) : Color :=
  match c with
  | Color.Hsla h s l a => hsla (Fadd h (some (degQ 180))) s l a
  | Color.Rgba r g b a =>
    let hslv := rgb_to_hsl r g b
    hsla (Fadd hslv.1 (some (degQ 180))) hslv.2.1 hslv.2.2 a

/-- The chroma `c = c_max - c_min` computed inside `rgb_to_hsl` (exposed for
stating properties about the intermediate value). -/
def chromaOf (red green blue : ℕ) : F :=
  let r := Fdiv (some (red : ℚ)) (some 255)
  let g := Fdiv (some (green : ℚ)) (some 255)
  let b := Fdiv (some (blue : ℚ)) (some 255)
  Fsub (FmaxU (FmaxU r g) b) (FminU (FminU r g) b)

/-- The saturation denominator `1.0 - (2.0 * lightness - 1.0).abs()` computed
inside `rgb_to_hsl` (exposed for stating properties). -/
def satDenomOf (red green blue : ℕ) : F :=
  Fsub (some 1) (Fabs (Fsub (Fmul (some 2) (rgb_to_hsl red green blue).2.2) (some 1)))

/-- The RGB→HSL→RGB round trip of the claim: convert the three bytes with
`rgb_to_hsl`, convert back with `hsl_to_rgb`, and turn each channel into a
byte by `(255.0 * channel).round() as u8` exactly as `Color::to_rgb` does. -/
def roundTripRgb (red green blue : ℕ) : ℕ × ℕ × ℕ :=
  let hslv := rgb_to_hsl red green blue
  let rgbv := hsl_to_rgb hslv.1 hslv.2.1 hslv.2.2
  (roundByte (Fmul (some 255) rgbv.1),
   roundByte (Fmul (some 255) rgbv.2.1),
   roundByte (Fmul (some 255) rgbv.2.2))

/-- Pure-rational mirror of the arithmetic core of `rgb_to_hsl` (inputs are
the byte values already divided by 255).  It is related to `rgb_to_hsl` by
`rgb_to_hsl_eq_some` below whenever no NaN arises. -/
def cmaxQ (r g b : ℚ) : ℚ := maxQ (maxQ r g) b

def cminQ (r g b : ℚ) : ℚ := minQ (minQ r g) b

def chromQ (r g b : ℚ) : ℚ := cmaxQ r g b - cminQ r g b

def hueQ (r g b : ℚ) : ℚ :=
  degQ 60 *
    (if cmaxQ r g b = r then fmodQ ((g - b) / chromQ r g b) 6
     else if cmaxQ r g b = g then (b - r) / chromQ r g b + 2
     else (r - g) / chromQ r g b + 4)

def lightQ (r g b : ℚ) : ℚ := (cmaxQ r g b + cminQ r g b) / 2

def satQ (r g b : ℚ) : ℚ :=
  if lightQ r g b = 0 then 0
  else chromQ r g b / (1 - |2 * lightQ r g b - 1|)

/-- Pure-rational mirror of `hsl_to_rgb`. -/
def hsl_to_rgbQ (hue saturation lightness : ℚ) : ℚ × ℚ × ℚ :=
  let chroma := (1 - |2 * lightness - 1|) * saturation
  let h := hue / degQ 60
  let x := chroma * (1 - |fmodQ h 2 - 1|)
  let rgb :=
    if h < 0 then ((0:ℚ), (0:ℚ), (0:ℚ))
    else if h < 1 then (chroma, x, 0)
    else if h < 2 then (x, chroma, 0)
    else if h < 3 then (0, chroma, x)
    else if h < 4 then (0, x, chroma)
    else if h < 5 then (x, 0, chroma)
    else if h < 6 then (chroma, 0, x)
    else (0, 0, 0)
  let m := lightness - chroma / 2
  (rgb.1 + m, rgb.2.1 + m, rgb.2.2 + m)

lemma Fadd_none_right (a : F) : Fadd a none = none := by cases a <;> rfl

lemma Fsub_none_right (a : F) : Fsub a none = none := by cases a <;> rfl

lemma Fsub_none_left (a : F) : Fsub none a = none := rfl

lemma Fmul_none_right (a : F) : Fmul a none = none := by cases a <;> rfl

lemma Fmul_none_left (a : F) : Fmul none a = none := rfl

lemma Fdiv_none_left (a : F) : Fdiv none a = none := rfl

lemma Flt_none_left (a : F) : Flt none a = false := rfl

lemma FfmodI_none (n : ℤ) : FfmodI none n = none := rfl

lemma Fabs_none : Fabs none = none := rfl

lemma Fadd_some (a b : ℚ) : Fadd (some a) (some b) = some (a + b) := rfl

lemma Fsub_some (a b : ℚ) : Fsub (some a) (some b) = some (a - b) := rfl

lemma Fmul_some (a b : ℚ) : Fmul (some a) (some b) = some (a * b) := rfl

lemma Fabs_some (a : ℚ) : Fabs (some a) = some |a| := rfl

lemma FfmodI_some (a : ℚ) (n : ℤ) : FfmodI (some a) n = some (fmodQ a n) := rfl

lemma Flt_none_not (a : F) : ¬(Flt none a = true) := by
  rw [Flt_none_left]
  exact Bool.false_ne_true

lemma FmaxU_self (a : F) : FmaxU a a = a := ite_self a

lemma FminU_self (a : F) : FminU a a = a := ite_self a

/-! ### `transform_2d.rs` -/

/-- `Transform2D`: a row-major 2×3 affine matrix `[[a, b, x], [c, d, y]]`
(implicit bottom row `0 0 1`), over exact rationals. -/
structure Transform2D where
  a : ℚ
  b : ℚ
  x : ℚ
  c : ℚ
  d : ℚ
  y : ℚ
deriving DecidableEq

/-- `transform_2d::identity`. -/
def identity : Transform2D := ⟨1, 0, 0, 0, 1, 0⟩

/-- `transform_2d::matrix(a, b, c, d, x, y)`. -/
def matrixT (a b c d x y : ℚ) : Transform2D := ⟨a, b, x, c, d, y⟩

/-- `transform_2d::translation(x, y)`. -/
def translation (x y : ℚ) : Transform2D := matrixT 1 0 0 1 x y

/-- `transform_2d::scale(s)`. -/
def scaleT (s : ℚ) : Transform2D := matrixT s 0 0 s 0 0

/-- `transform_2d::scale_x(s)`. -/
def scale_x (s : ℚ) : Transform2D := matrixT s 0 0 1 0 0

/-- `transform_2d::scale_y(s)`. -/
def scale_y (s : ℚ) : Transform2D := matrixT 1 0 0 s 0 0

/-- `transform_2d::multiply`: `vecmath::row_mat2x3_mul(m, n)`, the row-major
product of the two matrices extended with the implicit `0 0 1` bottom row. -/
def multiply (m n : Transform2D) : Transform2D :=
  ⟨m.a * n.a + m.b * n.c, m.a * n.b + m.b * n.d, m.a * n.x + m.b * n.y + m.x,
   m.c * n.a + m.d * n.c, m.c * n.b + m.d * n.d, m.c * n.x + m.d * n.y + m.y⟩

section Rotation

-- `f64::cos` and `f64::sin` are external math-library functions; the
-- rotation matrix is parametric in them.
variable (tcos tsin : ℚ → ℚ)

/-- `transform_2d::rotation(t)`: `[[cos t, -sin t, 0], [sin t, cos t, 0]]`. -/
def rotation (t : ℚ) : Transform2D :=
  ⟨tcos t, -tsin t, 0, tsin t, tcos t, 0⟩

end Rotation

/-! ### `text.rs` -/

/-- `text::Line`. -/
inductive TextLine : Type where
  | Under
  | Over
  | Through
deriving DecidableEq

/-- `text::Position` (named apart from the `element` Position). -/
inductive TextPosition : Type where
  | Center
  | ToLeft
  | ToRight
deriving DecidableEq

/-- `PathBuf` values are opaque to the library: only passed through. -/
inductive PathBuf : Type where
  | mk
deriving DecidableEq

/-- `text::Style`. -/
structure Style where
  typeface : Option PathBuf
  height : Option ℚ
  color : Color
  bold : Bool
  italic : Bool
  line : Option TextLine
  monospace : Bool
deriving DecidableEq

/-- `color::black()`. -/
def black : Color := Color.Rgba 0 0 0 (some 1)

/-- `color::white()`. -/
def white : Color := Color.Rgba 255 255 255 (some 1)

/-- `Style::default()`. -/
def Style.default : Style :=
  { typeface := none, height := none, color := black,
    bold := false, italic := false, line := none, monospace := false }

/-- `text::TextUnit`. -/
structure TextUnit where
  string : String
  style : Style
deriving DecidableEq

/-- `text::Text`. -/
structure Text where
  sequence : List TextUnit
  position : TextPosition
deriving DecidableEq

/-- `Text::from_string`. -/
def Text.from_string (s : String) : Text :=
  { sequence := [{ string := s, style := Style.default }], position := TextPosition.Center }

/-- `Text::typeface`: sets `unit.style.typeface` for every unit. -/
def Text.typeface (t : Text) (path : PathBuf) : Text :=
  { t with sequence := t.sequence.map fun u => { u with style := { u.style with typeface := some path } } }

/-- `Text::monospace`: sets `unit.style.monospace` for every unit. -/
def Text.monospace (t : Text) : Text :=
  { t with sequence := t.sequence.map fun u => { u with style := { u.style with monospace := true } } }

/-- `Text::height`: sets `unit.style.height` for every unit. -/
def Text.height (t : Text) (h : ℚ) : Text :=
  { t with sequence := t.sequence.map fun u => { u with style := { u.style with height := some h } } }

/-- `Text::color`: sets `unit.style.color` for every unit. -/
def Text.color (t : Text) (c : Color) : Text :=
  { t with sequence := t.sequence.map fun u => { u with style := { u.style with color := c } } }

/-- `Text::bold`: sets `unit.style.bold` for every unit. -/
def Text.bold (t : Text) : Text :=
  { t with sequence := t.sequence.map fun u => { u with style := { u.style with bold := true } } }

/-- `Text::italic`: sets `unit.style.italic` for every unit. -/
def Text.italic (t : Text) : Text :=
  { t with sequence := t.sequence.map fun u => { u with style := { u.style with italic := true } } }

/-- `Text::line`: sets `unit.style.line` for every unit. -/
def Text.line (t : Text) (l : TextLine) : Text :=
  { t with sequence := t.sequence.map fun u => { u with style := { u.style with line := some l } } }

/-! ### `form.rs` / `element.rs` data model -/

/-- `form::LineCap`. -/
inductive LineCap : Type where
  | Flat
  | Round
  | Padded
deriving DecidableEq

/-- `form::LineJoin`. -/
inductive LineJoin : Type where
  | Smooth
  | Sharp (limit : ℚ)
  | Clipped
deriving DecidableEq

/-- `form::LineStyle` (the `color` field lives in `color.rs`'s `Color`). -/
structure LineStyle where
  color : Color
  width : ℚ
  cap : LineCap
  join : LineJoin
  dashing : List ℤ
  dash_offset : ℤ
deriving DecidableEq

/-- `color::Gradient`. -/
inductive Gradient : Type where
  | Linear (start stop : ℚ × ℚ) (colors : List (ℚ × Color))
  | Radial (start : ℚ × ℚ) (start_r : ℚ) (stop : ℚ × ℚ) (stop_r : ℚ) (colors : List (ℚ × Color))
deriving DecidableEq

/-- `form::FillStyle`. -/
inductive FillStyle : Type where
  | Solid (c : Color)
  | Texture (p : PathBuf)
  | Grad (g : Gradient)
deriving DecidableEq

/-- `form::ShapeStyle`. -/
inductive ShapeStyle : Type where
  | Line (ls : LineStyle)
  | Fill (fs : FillStyle)
deriving DecidableEq

/-- `element::ImageStyle`. -/
inductive ImageStyle : Type where
  | Plain
  | Fitted
  | Cropped (x y : ℤ)
  | Tiled
deriving DecidableEq

/-- `element::Three`. -/
inductive Three : Type where
  | P
  | Z
  | N
deriving DecidableEq

/-- `element::Pos`. -/
inductive Pos : Type where
  | Absolute (i : ℤ)
  | Relative (f : ℚ)
deriving DecidableEq

/-- `element::Position`. -/
structure Position where
  horizontal : Three
  vertical : Three
  x : Pos
  y : Pos
deriving DecidableEq

/-- `element::Direction`. -/
inductive Direction : Type where
  | Up
  | Down
  | Left
  | Right
  | In
  | Out
deriving DecidableEq

/-- `element::Properties`. -/
structure Properties where
  width : ℤ
  height : ℤ
  opacity : F
  crop : Option (ℚ × ℚ × ℚ × ℚ)
  color : Option Color
deriving DecidableEq

mutual

/-- `form::Form`: per-node rotation, uniform scale, translation, alpha and a
`BasicForm` payload. -/
inductive Form : Type where
  | mk (theta scale x y : ℚ) (alpha : F) (form : BasicForm)

/-- `form::BasicForm` (the `PointPath`/`Shape` vertex-list newtypes are
inlined as plain lists). -/
inductive BasicForm : Type where
  | PointPath (style : LineStyle) (points : List (ℚ × ℚ))
  | Shape (style : ShapeStyle) (points : List (ℚ × ℚ))
  | OutlinedText (style : LineStyle) (t : Text)
  | Text (t : Text)
  | Image (src_x src_y : ℤ) (dim : ℤ × ℤ) (path : PathBuf)
  | Element (e : Element)
  | Group (transform : Transform2D) (forms : List Form)

/-- `element::Element`. -/
inductive Element : Type where
  | mk (props : Properties) (element : Prim)

/-- `element::Prim`. -/
inductive Prim : Type where
  | Image (style : ImageStyle) (w h : ℤ) (path : PathBuf)
  | Container (pos : Position) (e : Element)
  | Flow (dir : Direction) (elements : List Element)
  | Collage (w h : ℤ) (forms : List Form)
  | Cleared (c : Color) (e : Element)
  | Spacer

end

def Element.props : Element → Properties
  | .mk p _ => p

def Element.element : Element → Prim
  | .mk _ e => e

/-- `Element::get_width`. -/
def Element.get_width (e : Element) : ℤ := e.props.width

/-- `Element::get_height`. -/
def Element.get_height (e : Element) : ℤ := e.props.height

/-- `element::new_element`. -/
def new_element (w h : ℤ) (prim : Prim) : Element :=
  Element.mk
    { width := w, height := h, opacity := some 1, crop := none, color := none }
    prim

/-- `element::spacer`. -/
def spacer (w h : ℤ) : Element := new_element w h Prim.Spacer

/-- `element::empty`. -/
def empty : Element := spacer 0 0

/-- `element::image`. -/
def image (w h : ℤ) (path : PathBuf) : Element :=
  new_element w h (Prim.Image ImageStyle.Plain w h path)

/-- `form::collage`. -/
def collage (w h : ℤ) (forms : List Form) : Element :=
  new_element w h (Prim.Collage w h forms)

/-- `Element::width(new_width)`: for `Image`/`Collage` prims the height is
rescaled to `(h as f32 / w as f32 * new_width as f32).round() as i32`; all
other prims pass `Properties` through unchanged.  (Note: the source never
writes `new_width` into `props.width`.) -/
def Element.width (e : Element) (new_width : ℤ) : Element :=
  match e with
  | .mk props elem =>
    let new_props :=
      match elem with
      | Prim.Image _ w h _ =>
        { props with height := rustRound ((h : ℚ) / (w : ℚ) * (new_width : ℚ)) }
      | Prim.Collage w h _ =>
        { props with height := rustRound ((h : ℚ) / (w : ℚ) * (new_width : ℚ)) }
      | _ => props
    .mk new_props elem

/-- `Element::height(new_height)`: mirror image of `Element::width`. -/
def Element.height (e : Element) (new_height : ℤ) : Element :=
  match e with
  | .mk props elem =>
    let new_props :=
      match elem with
      | Prim.Image _ w h _ =>
        { props with width := rustRound ((w : ℚ) / (h : ℚ) * (new_height : ℚ)) }
      | Prim.Collage w h _ =>
        { props with width := rustRound ((w : ℚ) / (h : ℚ) * (new_height : ℚ)) }
      | _ => props
    .mk new_props elem

/-- `element::flow`: early-returns `empty()` on an empty child list, then
computes the four candidate extents and picks per direction.  The iterator
`max().unwrap()` on the nonempty list is a left fold of `max` over the
remaining widths/heights starting from the first. -/
def flow (dir : Direction) (elements : List Element) : Element :=
  match elements with
  | [] => empty
  | e :: es =>
    let max_w := (es.map Element.get_width).foldl max e.get_width
    let max_h := (es.map Element.get_height).foldl max e.get_height
    let sum_w := (e :: es).foldl (fun total el => total + el.get_width) 0
    let sum_h := (e :: es).foldl (fun total el => total + el.get_height) 0
    match dir with
    | Direction.Up => new_element max_w sum_h (Prim.Flow dir (e :: es))
    | Direction.Down => new_element max_w sum_h (Prim.Flow dir (e :: es))
    | Direction.Left => new_element sum_w max_h (Prim.Flow dir (e :: es))
    | Direction.Right => new_element sum_w max_h (Prim.Flow dir (e :: es))
    | Direction.In => new_element max_w max_h (Prim.Flow dir (e :: es))
    | Direction.Out => new_element max_w max_h (Prim.Flow dir (e :: es))

/-- The `max().unwrap_or(0)` of `element::layers`. -/
def maxOr0 : List ℤ → ℤ
  | [] => 0
  | x :: xs => xs.foldl max x

/-- `element::layers`. -/
def layers (elements : List Element) : Element :=
  new_element (maxOr0 (elements.map Element.get_width))
    (maxOr0 (elements.map Element.get_height))
    (Prim.Flow Direction.Out elements)

/-! ### `form.rs` draw traversal

`draw_form` walks a `Form` with an incoming matrix and emits draw calls to
the piston-graphics backend.  The backend and the character cache are
external collaborators: the backend is modelled by recording the emitted
primitive calls as a trace of `DrawEvent`s, the character cache by a width
oracle `CharCache`.  A Rust `unimplemented!()` panic unwinds the whole
traversal, modelled by `Except Unit`: `.error ()` is an abort and no
further events are produced. -/

/-- The character-metrics provider: `width(font_size, string)`. -/
def CharCache : Type := ℕ → String → ℚ

/-- One primitive call issued to the backend during the traversal. -/
inductive DrawEvent : Type where
  | line (color : F × F × F × F) (radius : ℚ) (cap : LineCap)
      (seg : (ℚ × ℚ) × (ℚ × ℚ)) (transform : Transform2D)
  | polygon (color : F × F × F × F) (points : List (ℚ × ℚ)) (transform : Transform2D)
  | text (color : F × F × F × F) (font_size : ℕ) (string : String) (transform : Transform2D)
  | element (e : Element) (transform : Transform2D)

/-- The transform a draw event was issued with. -/
def DrawEvent.tform : DrawEvent → Transform2D
  | .line _ _ _ _ m => m
  | .polygon _ _ m => m
  | .text _ _ _ m => m
  | .element _ m => m

/-- The converted color a draw event was issued with (`none` for the
`Element` delegation, which carries no color of its own). -/
def DrawEvent.colorOf : DrawEvent → Option (F × F × F × F)
  | .line c _ _ _ _ => some c
  | .polygon c _ _ => some c
  | .text c _ _ _ => some c
  | .element _ _ => none

/-- `form::convert_color(color, alpha)`: an elmesque color as a
piston-graphics `[f32; 4]`, with the stored alpha multiplied by `alpha`. -/
def convert_color (color : Color) (alpha : F) : F × F × F × F :=
  match color with
  | Color.Hsla h s l a =>
    let rgb := hsl_to_rgb h s l
    (rgb.1, rgb.2.1, rgb.2.2, Fmul a alpha)
  | Color.Rgba r g b a => (some (r : ℚ), some (g : ℚ), some (b : ℚ), Fmul a alpha)

/-- `points.windows(2)`: the list of consecutive point pairs. -/
def windows2 : List (ℚ × ℚ) → List ((ℚ × ℚ) × (ℚ × ℚ))
  | a :: b :: rest => (a, b) :: windows2 (b :: rest)
  | _ => []

/-- The per-segment `draw_line` closure of the `PointPath` arm: dashing is
unimplemented (panics), `LineCap::Padded` is unimplemented (panics), and
otherwise one line primitive is emitted per segment. -/
def lineEvents (dashing : List ℤ) (cap : LineCap) (color : F × F × F × F)
    (radius : ℚ) (m : Transform2D) :
    List ((ℚ × ℚ) × (ℚ × ℚ)) → Except Unit (List DrawEvent)
  | [] => .ok []
  | sg :: rest =>
    if dashing = [] then
      match cap with
      | LineCap.Padded => .error ()
      | LineCap.Flat =>
        match lineEvents dashing cap color radius m rest with
        | .error e => .error e
        | .ok evs => .ok (DrawEvent.line color radius LineCap.Flat sg m :: evs)
      | LineCap.Round =>
        match lineEvents dashing cap color radius m rest with
        | .error e => .error e
        | .ok evs => .ok (DrawEvent.line color radius LineCap.Round sg m :: evs)
    else .error ()

/-- The per-segment `draw_line` closure of the `Shape`/`Line` arm: unlike
the `PointPath` arm it performs no dashing check (source comment: "join,
dashing and dash_offset are not yet handled properly"). -/
def shapeLineEvents (cap : LineCap) (color : F × F × F × F) (radius : ℚ)
    (m : Transform2D) :
    List ((ℚ × ℚ) × (ℚ × ℚ)) → Except Unit (List DrawEvent)
  | [] => .ok []
  | sg :: rest =>
    match cap with
    | LineCap.Padded => .error ()
    | LineCap.Flat =>
      match shapeLineEvents cap color radius m rest with
      | .error e => .error e
      | .ok evs => .ok (DrawEvent.line color radius LineCap.Flat sg m :: evs)
    | LineCap.Round =>
      match shapeLineEvents cap color radius m rest with
      | .error e => .error e
      | .ok evs => .ok (DrawEvent.line color radius LineCap.Round sg m :: evs)

/-- A Rust `as u32` cast of a nonnegative height (negative values saturate
to zero). -/
def u32Of (q : ℚ) : ℕ := ⌊q⌋.toNat

/-- The `(total_width, max_height)` fold over the text sequence in the
`Text` arm of `draw_form`. -/
def textMetrics (cache : CharCache) (seq : List TextUnit) : ℚ × ℚ :=
  seq.foldl
    (fun acc u =>
      let h := u.style.height.getD 16
      (acc.1 + cache (u32Of h) u.string, if acc.2 < h then h else acc.2))
    (0, 0)

section Draw

variable (tcos tsin : ℚ → ℚ)

mutual

/-- `form::draw_form(form, matrix, backend, maybe_character_cache, draw_state)`,
as a trace of backend calls.  The incoming matrix is first composed with the
node's own transform:
`matrix.multiply(translation(x, y)).multiply(scale(scale)).multiply(rotation(theta))`. -/
def draw_form (cc : Option CharCache) (form : Form) (matrix : Transform2D) :
    Except Unit (List DrawEvent) :=
  match form with
  | .mk theta scl x y alpha bform =>
    let m := multiply (multiply (multiply matrix (translation x y)) (scaleT scl))
      (rotation tcos tsin theta)
    match bform with
    | BasicForm.PointPath ls pts =>
      lineEvents ls.dashing ls.cap (convert_color ls.color alpha) (ls.width / 2) m
        (windows2 pts)
    | BasicForm.Shape (ShapeStyle.Line ls) pts =>
      let segs := windows2 pts ++
        (if 2 < pts.length then [(pts.getLast?.getD (0, 0), pts.head?.getD (0, 0))] else [])
      shapeLineEvents ls.cap (convert_color ls.color alpha) (ls.width / 2) m segs
    | BasicForm.Shape (ShapeStyle.Fill (FillStyle.Solid c)) pts =>
      .ok [DrawEvent.polygon (convert_color c alpha) pts m]
    | BasicForm.Shape (ShapeStyle.Fill (FillStyle.Texture _)) _ => .error ()
    | BasicForm.Shape (ShapeStyle.Fill (FillStyle.Grad _)) _ => .error ()
    | BasicForm.OutlinedText _ _ => .error ()
    | BasicForm.Text t =>
      let m2 := multiply m (scale_y (-1))
      match cc with
      | none => .ok []
      | some cache =>
        let tw := (textMetrics cache t.sequence).1
        let mh := (textMetrics cache t.sequence).2
        let m3 := multiply m2 (translation (-tw / 2) (mh / 3))
        .ok (t.sequence.map fun u =>
          DrawEvent.text (convert_color u.style.color alpha)
            (u32Of (u.style.height.getD 16)) u.string m3)
    | BasicForm.Image _ _ _ _ => .error ()
    | BasicForm.Element e => .ok [DrawEvent.element e m]
    | BasicForm.Group gt forms => draw_forms cc forms (multiply m gt)

/-- The `Group` arm's loop: draw each child in order with the same matrix,
aborting the whole traversal at the first panic. -/
def draw_forms (cc : Option CharCache) (forms : List Form) (matrix : Transform2D) :
    Except Unit (List DrawEvent) :=
  match forms with
  | [] => .ok []
  | f :: fs =>
    match draw_form cc f matrix with
    | .error e => .error e
    | .ok evs =>
      match draw_forms cc fs matrix with
      | .error e => .error e
      | .ok rest => .ok (evs ++ rest)

end

end Draw

/-- The events of a trace (an aborted trace has issued no events through
this view; abortion is tracked by the `Except` layer itself). -/
def eventsOf : Except Unit (List DrawEvent) → List DrawEvent
  | .ok evs => evs
  | .error _ => []

/-- Sequential concatenation of independent traces, aborting at the first
panic. -/
def seqTraces : List (Except Unit (List DrawEvent)) → Except Unit (List DrawEvent)
  | [] => .ok []
  | t :: ts =>
    match t with
    | .error e => .error e
    | .ok evs =>
      match seqTraces ts with
      | .error e => .error e
      | .ok rest => .ok (evs ++ rest)

/-! ### Theorems -/

/-- C7: for every `Transform2D` `M`, `multiply(identity(), M) == M` and
`multiply(M, identity()) == M`, with exact equality of all six entries. -/
theorem multiply_identity (M : Transform2D) :
    multiply identity M = M ∧ multiply M identity = M := by
  cases M
  constructor <;> simp [multiply, identity]

/-- C9: every `Text` builder (`color`, `height`, `bold`, `italic`, `line`,
`monospace`, `typeface`) broadcasts the style update over every unit of the
sequence, leaving the strings and the sequence length unchanged (they are
`map`s touching only the style field); and
`Text::from_string(s).color(white()).height(20.0)` yields a sequence whose
every unit has color white and height 20. -/
theorem text_builders_broadcast (t : Text) (c : Color) (h : ℚ) (p : PathBuf)
    (l : TextLine) (s : String) :
    (t.color c).sequence =
      t.sequence.map (fun u => { u with style := { u.style with color := c } })
    ∧ (t.height h).sequence =
      t.sequence.map (fun u => { u with style := { u.style with height := some h } })
    ∧ t.bold.sequence =
      t.sequence.map (fun u => { u with style := { u.style with bold := true } })
    ∧ t.italic.sequence =
      t.sequence.map (fun u => { u with style := { u.style with italic := true } })
    ∧ (t.line l).sequence =
      t.sequence.map (fun u => { u with style := { u.style with line := some l } })
    ∧ t.monospace.sequence =
      t.sequence.map (fun u => { u with style := { u.style with monospace := true } })
    ∧ (t.typeface p).sequence =
      t.sequence.map (fun u => { u with style := { u.style with typeface := some p } })
    ∧ ((Text.from_string s).color white).height 20 =
      { sequence :=
          [{ string := s, style := { Style.default with color := white, height := some 20 } }],
        position := TextPosition.Center } := by
  refine ⟨rfl, rfl, rfl, rfl, rfl, rfl, rfl, rfl⟩

/-- C3 (code bug): `Element::width(new_width)` on an `Image` element never
stores `new_width` into the properties: on `image(100, 50, _)` the call
`width(200)` rescales the height to `round(50/100 * 200) = 100` but leaves
the width at `100` instead of setting it to `200` (contradicting the
builder's own doc comment "Create an `Element` with a given width", and
mirrored by `Element::height`). -/
theorem width_builder_drops_new_width :
    ((image 100 50 PathBuf.mk).width 200).props.width = 100
    ∧ ((image 100 50 PathBuf.mk).width 200).props.height = 100
    ∧ ((image 100 50 PathBuf.mk).height 100).props.height = 50
    ∧ ((spacer 9 9).width 200).props = (spacer 9 9).props := by
  have hr : rustRound ((50 : ℚ) / 100 * 200) = 100 := by
    have h1 : ((50 : ℚ) / 100 * 200) = 100 := by norm_num
    rw [h1, rustRound, if_pos (by norm_num)]
    rw [show ((100 : ℚ) + 1/2) = 201/2 by norm_num]
    rw [Int.floor_eq_iff]
    norm_num
  refine ⟨rfl, ?_, rfl, rfl⟩
  show rustRound ((50 : ℚ) / 100 * 200) = 100
  exact hr

/-- The left fold of `max` (Rust's `Iterator::max` on a nonempty list)
yields an element of the list. -/
lemma foldl_max_mem (l : List ℤ) : ∀ x : ℤ, l.foldl max x ∈ x :: l := by
  induction l with
  | nil => intro x; simp
  | cons a l ih =>
    intro x
    have h := ih (max x a)
    simp only [List.foldl_cons]
    rcases List.mem_cons.mp h with h' | h'
    · rw [h']
      rcases max_choice x a with hm | hm <;> rw [hm] <;> simp
    · exact List.mem_cons_of_mem _ (List.mem_cons_of_mem _ h')

/-- The left fold of `max` bounds every member of the list (and the seed). -/
lemma foldl_max_le (l : List ℤ) : ∀ x : ℤ, ∀ y ∈ x :: l, y ≤ l.foldl max x := by
  induction l with
  | nil => intro x y hy; simp at hy; simp [hy]
  | cons a l ih =>
    intro x y hy
    rcases List.mem_cons.mp hy with h' | h'
    · subst h'
      have := ih (max y a) (max y a) (List.mem_cons_self _ _)
      calc y ≤ max y a := le_max_left _ _
        _ ≤ l.foldl max (max y a) := this
        _ = (a :: l).foldl max y := by simp [List.foldl_cons]
    · rcases List.mem_cons.mp h' with h'' | h''
      · subst h''
        have := ih (max x y) (max x y) (List.mem_cons_self _ _)
        calc y ≤ max x y := le_max_right _ _
          _ ≤ l.foldl max (max x y) := this
          _ = (y :: l).foldl max x := by simp [List.foldl_cons]
      · have := ih (max x a) y (List.mem_cons_of_mem _ h'')
        simpa [List.foldl_cons] using this

/-- The accumulating fold of `element::flow` computes `init` plus the sum of
the mapped values. -/
lemma foldl_add_eq (f : Element → ℤ) (l : List Element) :
    ∀ init : ℤ, l.foldl (fun total el => total + f el) init = init + (l.map f).sum := by
  induction l with
  | nil => intro init; simp
  | cons e l ih =>
    intro init
    simp only [List.foldl_cons, List.map_cons, List.sum_cons, ih]
    ring

/-- `x` is the maximum of the list `l`: it is a member and bounds all
members. -/
def isMaxOf (x : ℤ) (l : List ℤ) : Prop := x ∈ l ∧ ∀ y ∈ l, y ≤ x

/-- C4: `flow` sizes its element from its children — `Up`/`Down`: width is
the maximum child width and height the sum of child heights; `Left`/`Right`:
width is the sum and height the maximum; `In`/`Out`: both dimensions are
maxima; and the empty child list yields the 0×0 element (for `flow` the
`empty()` spacer, for `layers` a 0×0 flow) with no panic — the
`max().unwrap()` is guarded by the early return. -/
theorem flow_sizing_spec (e : Element) (es : List Element) :
    (∀ dir, flow dir [] = spacer 0 0)
    ∧ (layers []).props.width = 0 ∧ (layers []).props.height = 0
    ∧ (∀ dir, dir = Direction.Up ∨ dir = Direction.Down →
        isMaxOf (flow dir (e :: es)).props.width ((e :: es).map Element.get_width)
        ∧ (flow dir (e :: es)).props.height = ((e :: es).map Element.get_height).sum)
    ∧ (∀ dir, dir = Direction.Left ∨ dir = Direction.Right →
        (flow dir (e :: es)).props.width = ((e :: es).map Element.get_width).sum
        ∧ isMaxOf (flow dir (e :: es)).props.height ((e :: es).map Element.get_height))
    ∧ (∀ dir, dir = Direction.In ∨ dir = Direction.Out →
        isMaxOf (flow dir (e :: es)).props.width ((e :: es).map Element.get_width)
        ∧ isMaxOf (flow dir (e :: es)).props.height ((e :: es).map Element.get_height)) := by
  have hmaxw : isMaxOf ((es.map Element.get_width).foldl max e.get_width)
      ((e :: es).map Element.get_width) := by
    constructor
    · simpa using foldl_max_mem (es.map Element.get_width) e.get_width
    · intro y hy
      exact foldl_max_le (es.map Element.get_width) e.get_width y (by simpa using hy)
  have hmaxh : isMaxOf ((es.map Element.get_height).foldl max e.get_height)
      ((e :: es).map Element.get_height) := by
    constructor
    · simpa using foldl_max_mem (es.map Element.get_height) e.get_height
    · intro y hy
      exact foldl_max_le (es.map Element.get_height) e.get_height y (by simpa using hy)
  have hsumw : ((e :: es).foldl (fun total el => total + el.get_width) 0)
      = ((e :: es).map Element.get_width).sum := by
    simpa using foldl_add_eq Element.get_width (e :: es) 0
  have hsumh : ((e :: es).foldl (fun total el => total + el.get_height) 0)
      = ((e :: es).map Element.get_height).sum := by
    simpa using foldl_add_eq Element.get_height (e :: es) 0
  refine ⟨fun dir => rfl, rfl, rfl, ?_, ?_, ?_⟩
  · rintro dir (rfl | rfl)
    · exact ⟨hmaxw, by simpa [flow, new_element, Element.props] using hsumh⟩
    · exact ⟨hmaxw, by simpa [flow, new_element, Element.props] using hsumh⟩
  · rintro dir (rfl | rfl)
    · exact ⟨by simpa [flow, new_element, Element.props] using hsumw, hmaxh⟩
    · exact ⟨by simpa [flow, new_element, Element.props] using hsumw, hmaxh⟩
  · rintro dir (rfl | rfl)
    · exact ⟨hmaxw, hmaxh⟩
    · exact ⟨hmaxw, hmaxh⟩

/-- Witness for `flow_sizing_spec`: a concrete two-element `Down` flow. -/
theorem flow_sizing_spec_witness :
    (Direction.Down = Direction.Up ∨ Direction.Down = Direction.Down)
    ∧ (isMaxOf (flow Direction.Down (spacer 3 4 :: [spacer 1 9])).props.width
        ((spacer 3 4 :: [spacer 1 9]).map Element.get_width)
      ∧ (flow Direction.Down (spacer 3 4 :: [spacer 1 9])).props.height
        = ((spacer 3 4 :: [spacer 1 9]).map Element.get_height).sum) :=
  ⟨Or.inr rfl,
   (flow_sizing_spec (spacer 3 4) [spacer 1 9]).2.2.2.1 Direction.Down (Or.inr rfl)⟩

/-- Every event emitted by the `PointPath` per-segment loop satisfies any
predicate holding on line events with the loop's fixed color, radius and
matrix. -/
lemma lineEvents_all (dash : List ℤ) (cap : LineCap) (col : F × F × F × F)
    (radius : ℚ) (m : Transform2D) (P : DrawEvent → Bool)
    (hP : ∀ sg cp, P (DrawEvent.line col radius cp sg m) = true) :
    ∀ segs, (eventsOf (lineEvents dash cap col radius m segs)).all P = true := by
  intro segs
  induction segs with
  | nil => rfl
  | cons sg rest ih =>
    by_cases hd : dash = []
    · subst hd
      cases cap with
      | Padded => simp [lineEvents, eventsOf]
      | Flat =>
        cases h : lineEvents [] LineCap.Flat col radius m rest with
        | error e => simp [lineEvents, h, eventsOf]
        | ok evs =>
          rw [h] at ih
          simp only [eventsOf] at ih
          simp [lineEvents, h, eventsOf, List.all_cons, hP, ih]
      | Round =>
        cases h : lineEvents [] LineCap.Round col radius m rest with
        | error e => simp [lineEvents, h, eventsOf]
        | ok evs =>
          rw [h] at ih
          simp only [eventsOf] at ih
          simp [lineEvents, h, eventsOf, List.all_cons, hP, ih]
    · simp [lineEvents, hd, eventsOf]

/-- Every event emitted by the `Shape`/`Line` per-segment loop satisfies any
predicate holding on line events with the loop's fixed color, radius and
matrix. -/
lemma shapeLineEvents_all (cap : LineCap) (col : F × F × F × F)
    (radius : ℚ) (m : Transform2D) (P : DrawEvent → Bool)
    (hP : ∀ sg cp, P (DrawEvent.line col radius cp sg m) = true) :
    ∀ segs, (eventsOf (shapeLineEvents cap col radius m segs)).all P = true := by
  intro segs
  induction segs with
  | nil => rfl
  | cons sg rest ih =>
    cases cap with
    | Padded => simp [shapeLineEvents, eventsOf]
    | Flat =>
      cases h : shapeLineEvents LineCap.Flat col radius m rest with
      | error e => simp [shapeLineEvents, h, eventsOf, Except.bind]
      | ok evs =>
        rw [h] at ih
        simp only [eventsOf] at ih
        simp [shapeLineEvents, h, eventsOf, Except.bind, List.all_cons, hP, ih]
    | Round =>
      cases h : shapeLineEvents LineCap.Round col radius m rest with
      | error e => simp [shapeLineEvents, h, eventsOf, Except.bind]
      | ok evs =>
        rw [h] at ih
        simp only [eventsOf] at ih
        simp [shapeLineEvents, h, eventsOf, Except.bind, List.all_cons, hP, ih]

/-- The `Group` loop is the sequential concatenation of the independent
child traces, each started from the same matrix. -/
lemma draw_forms_eq_seqTraces (tcos tsin : ℚ → ℚ) (cc : Option CharCache) :
    ∀ (forms : List Form) (M : Transform2D),
      draw_forms tcos tsin cc forms M =
        seqTraces (forms.map fun f => draw_form tcos tsin cc f M) := by
  intro forms M
  induction forms with
  | nil => rfl
  | cons f fs ih => simp [draw_forms, seqTraces, ih]

/-- C8: when the draw traversal reaches a `Text` form and no
character-metrics provider was supplied, the text is skipped entirely (the
trace is `ok []`: no draw calls, no failure), while unsupported primitives
(`OutlinedText`, `Image` sprites, texture and gradient fills) abort the
traversal with a panic (`error`). -/
theorem text_skipped_without_character_cache (tcos tsin : ℚ → ℚ)
    (M : Transform2D) (theta scl x y : ℚ) (alpha : F) (t : Text)
    (cc : Option CharCache) (ls : LineStyle) (t' : Text)
    (sx sy : ℤ) (d : ℤ × ℤ) (p : PathBuf) (g : Gradient) (pts : List (ℚ × ℚ)) :
    draw_form tcos tsin none (Form.mk theta scl x y alpha (BasicForm.Text t)) M = .ok []
    ∧ draw_form tcos tsin cc (Form.mk theta scl x y alpha (BasicForm.OutlinedText ls t')) M
      = .error ()
    ∧ draw_form tcos tsin cc (Form.mk theta scl x y alpha (BasicForm.Image sx sy d p)) M
      = .error ()
    ∧ draw_form tcos tsin cc
        (Form.mk theta scl x y alpha (BasicForm.Shape (ShapeStyle.Fill (FillStyle.Texture p)) pts)) M
      = .error ()
    ∧ draw_form tcos tsin cc
        (Form.mk theta scl x y alpha (BasicForm.Shape (ShapeStyle.Fill (FillStyle.Grad g)) pts)) M
      = .error () := by
  refine ⟨?_, ?_, ?_, ?_, ?_⟩ <;> simp [draw_form]

/-- C1: for every node the matrix used to draw its own content is
`M' = M·translate(x, y)·scale(s)·rotate(θ)`, composed by `multiply` in
exactly that left-to-right order — every `PointPath`/`Shape` primitive event
carries `M'`, the `Element` delegation receives `M'` — and a
`Group(groupMatrix, children)` draws its children in sequence order, each
child's trace computed independently from the same starting matrix
`M'' = M'·groupMatrix`. -/
theorem draw_form_transform_accumulation (tcos tsin : ℚ → ℚ)
    (cc : Option CharCache) (M : Transform2D) (theta scl x y : ℚ) (alpha : F) :
    (∀ ls pts,
      (eventsOf (draw_form tcos tsin cc
          (Form.mk theta scl x y alpha (BasicForm.PointPath ls pts)) M)).all
        (fun ev => ev.tform ==
          multiply (multiply (multiply M (translation x y)) (scaleT scl))
            (rotation tcos tsin theta)) = true)
    ∧ (∀ st pts,
      (eventsOf (draw_form tcos tsin cc
          (Form.mk theta scl x y alpha (BasicForm.Shape st pts)) M)).all
        (fun ev => ev.tform ==
          multiply (multiply (multiply M (translation x y)) (scaleT scl))
            (rotation tcos tsin theta)) = true)
    ∧ (∀ e,
      draw_form tcos tsin cc (Form.mk theta scl x y alpha (BasicForm.Element e)) M
        = .ok [DrawEvent.element e
            (multiply (multiply (multiply M (translation x y)) (scaleT scl))
              (rotation tcos tsin theta))])
    ∧ (∀ gt forms,
      draw_form tcos tsin cc (Form.mk theta scl x y alpha (BasicForm.Group gt forms)) M
        = draw_forms tcos tsin cc forms
            (multiply
              (multiply (multiply (multiply M (translation x y)) (scaleT scl))
                (rotation tcos tsin theta)) gt))
    ∧ (∀ gt forms,
      draw_forms tcos tsin cc forms
          (multiply
            (multiply (multiply (multiply M (translation x y)) (scaleT scl))
              (rotation tcos tsin theta)) gt)
        = seqTraces (forms.map fun f =>
            draw_form tcos tsin cc f
              (multiply
                (multiply (multiply (multiply M (translation x y)) (scaleT scl))
                  (rotation tcos tsin theta)) gt))) := by
  refine ⟨?_, ?_, ?_, ?_, ?_⟩
  · intro ls pts
    simp only [draw_form]
    exact lineEvents_all ls.dashing ls.cap _ _ _ _ (fun sg cp => by simp [DrawEvent.tform]) (windows2 pts)
  · intro st pts
    match st with
    | ShapeStyle.Line ls =>
      simp only [draw_form]
      exact shapeLineEvents_all ls.cap _ _ _ _ (fun sg cp => by simp [DrawEvent.tform]) _
    | ShapeStyle.Fill (FillStyle.Solid c) => simp [draw_form, eventsOf, DrawEvent.tform]
    | ShapeStyle.Fill (FillStyle.Texture p) => simp [draw_form, eventsOf]
    | ShapeStyle.Fill (FillStyle.Grad g) => simp [draw_form, eventsOf]
  · intro e
    simp [draw_form]
  · intro gt forms
    simp [draw_form]
  · intro gt forms
    exact draw_forms_eq_seqTraces tcos tsin cc forms _

/-- The alpha stored in a `Color`. -/
def Color.alphaOf : Color → F
  | Color.Rgba _ _ _ a => a
  | Color.Hsla _ _ _ a => a

/-- C2: every primitive leaf is drawn through `convert_color(color, node.alpha)`
whose final channel is the color's stored alpha multiplied by the node's own
alpha field, and a `Group`'s trace is independent of the group node's alpha
(children are drawn with their own alphas only — no multiplication down the
tree). -/
theorem draw_form_alpha_policy (tcos tsin : ℚ → ℚ) (cc : Option CharCache)
    (M : Transform2D) (theta scl x y : ℚ) (alpha : F) :
    (∀ c a, (convert_color c a).2.2.2 = Fmul c.alphaOf a)
    ∧ (∀ ls pts,
      (eventsOf (draw_form tcos tsin cc
          (Form.mk theta scl x y alpha (BasicForm.PointPath ls pts)) M)).all
        (fun ev => ev.colorOf == some (convert_color ls.color alpha)) = true)
    ∧ (∀ ls pts,
      (eventsOf (draw_form tcos tsin cc
          (Form.mk theta scl x y alpha (BasicForm.Shape (ShapeStyle.Line ls) pts)) M)).all
        (fun ev => ev.colorOf == some (convert_color ls.color alpha)) = true)
    ∧ (∀ c pts,
      draw_form tcos tsin cc
          (Form.mk theta scl x y alpha
            (BasicForm.Shape (ShapeStyle.Fill (FillStyle.Solid c)) pts)) M
        = .ok [DrawEvent.polygon (convert_color c alpha) pts
            (multiply (multiply (multiply M (translation x y)) (scaleT scl))
              (rotation tcos tsin theta))])
    ∧ (∀ cache t,
      (eventsOf (draw_form tcos tsin (some cache)
          (Form.mk theta scl x y alpha (BasicForm.Text t)) M))
        = t.sequence.map fun u =>
            DrawEvent.text (convert_color u.style.color alpha)
              (u32Of (u.style.height.getD 16)) u.string
              (multiply
                (multiply
                  (multiply (multiply (multiply M (translation x y)) (scaleT scl))
                    (rotation tcos tsin theta))
                  (scale_y (-1)))
                (translation (-(textMetrics cache t.sequence).1 / 2)
                  ((textMetrics cache t.sequence).2 / 3))))
    ∧ (∀ gt forms alpha',
      draw_form tcos tsin cc (Form.mk theta scl x y alpha (BasicForm.Group gt forms)) M
        = draw_form tcos tsin cc (Form.mk theta scl x y alpha' (BasicForm.Group gt forms)) M) := by
  refine ⟨?_, ?_, ?_, ?_, ?_, ?_⟩
  · intro c a
    cases c <;> rfl
  · intro ls pts
    simp only [draw_form]
    exact lineEvents_all ls.dashing ls.cap _ _ _ _ (fun sg cp => by simp [DrawEvent.colorOf]) (windows2 pts)
  · intro ls pts
    simp only [draw_form]
    exact shapeLineEvents_all ls.cap _ _ _ _ (fun sg cp => by simp [DrawEvent.colorOf]) _
  · intro c pts
    simp [draw_form]
  · intro cache t
    simp [draw_form, eventsOf]
  · intro gt forms alpha'
    simp [draw_form]

/-! ### Color lemmas -/

lemma Fdiv_some (a b : ℚ) (hb : b ≠ 0) : Fdiv (some a) (some b) = some (a / b) := by
  simp [Fdiv, hb]

lemma FmaxU_some (a b : ℚ) : FmaxU (some a) (some b) = some (maxQ a b) := by
  by_cases h : b ≤ a <;> simp [FmaxU, Fge, Fle, maxQ, h]

lemma FminU_some (a b : ℚ) : FminU (some a) (some b) = some (minQ a b) := by
  by_cases h : a ≤ b <;> simp [FminU, Fle, minQ, h]

lemma maxQ_eq (a b : ℚ) : maxQ a b = max a b := by
  unfold maxQ
  by_cases h : b ≤ a
  · rw [if_pos h, max_eq_left h]
  · rw [if_neg h, max_eq_right (le_of_not_le h)]

lemma minQ_eq (a b : ℚ) : minQ a b = min a b := by
  unfold minQ
  by_cases h : a ≤ b
  · rw [if_pos h, min_eq_left h]
  · rw [if_neg h, min_eq_right (le_of_not_le h)]

lemma cmaxQ_eq (r g b : ℚ) : cmaxQ r g b = max (max r g) b := by
  unfold cmaxQ; rw [maxQ_eq, maxQ_eq]

lemma cminQ_eq (r g b : ℚ) : cminQ r g b = min (min r g) b := by
  unfold cminQ; rw [minQ_eq, minQ_eq]

lemma le_cmaxQ_left (r g b : ℚ) : r ≤ cmaxQ r g b := by
  rw [cmaxQ_eq]; exact le_trans (le_max_left r g) (le_max_left _ _)

lemma le_cmaxQ_mid (r g b : ℚ) : g ≤ cmaxQ r g b := by
  rw [cmaxQ_eq]; exact le_trans (le_max_right r g) (le_max_left _ _)

lemma le_cmaxQ_right (r g b : ℚ) : b ≤ cmaxQ r g b := by
  rw [cmaxQ_eq]; exact le_max_right _ _

lemma cminQ_le_left (r g b : ℚ) : cminQ r g b ≤ r := by
  rw [cminQ_eq]; exact le_trans (min_le_left _ _) (min_le_left r g)

lemma cminQ_le_mid (r g b : ℚ) : cminQ r g b ≤ g := by
  rw [cminQ_eq]; exact le_trans (min_le_left _ _) (min_le_right r g)

lemma cminQ_le_right (r g b : ℚ) : cminQ r g b ≤ b := by
  rw [cminQ_eq]; exact min_le_right _ _

/-- Not all channels equal forces a strictly positive chroma. -/
lemma chromQ_pos (r g b : ℚ) (hne : ¬(r = g ∧ g = b)) : 0 < chromQ r g b := by
  unfold chromQ
  by_contra hle
  push_neg at hle
  have h1 := le_cmaxQ_left r g b
  have h2 := le_cmaxQ_mid r g b
  have h3 := le_cmaxQ_right r g b
  have h4 := cminQ_le_left r g b
  have h5 := cminQ_le_mid r g b
  have h6 := cminQ_le_right r g b
  exact hne ⟨by linarith, by linarith⟩

lemma cminQ_nonneg (r g b : ℚ) (h0r : 0 ≤ r) (h0g : 0 ≤ g) (h0b : 0 ≤ b) :
    0 ≤ cminQ r g b := by
  rw [cminQ_eq]
  exact le_min (le_min h0r h0g) h0b

lemma cmaxQ_le_one (r g b : ℚ) (h1r : r ≤ 1) (h1g : g ≤ 1) (h1b : b ≤ 1) :
    cmaxQ r g b ≤ 1 := by
  rw [cmaxQ_eq]
  exact max_le (max_le h1r h1g) h1b

/-- With channels in `[0, 1]` and positive chroma, the lightness is strictly
positive. -/
lemma lightQ_pos (r g b : ℚ) (h0r : 0 ≤ r) (h0g : 0 ≤ g) (h0b : 0 ≤ b)
    (hc : 0 < chromQ r g b) : 0 < lightQ r g b := by
  unfold lightQ
  have h0 := cminQ_nonneg r g b h0r h0g h0b
  unfold chromQ at hc
  linarith

/-- With channels in `[0, 1]` and positive chroma, the saturation
denominator `1 - |2·lightness - 1|` is strictly positive. -/
lemma satDenom_pos (r g b : ℚ) (h0r : 0 ≤ r) (h0g : 0 ≤ g) (h0b : 0 ≤ b)
    (h1r : r ≤ 1) (h1g : g ≤ 1) (h1b : b ≤ 1) (hc : 0 < chromQ r g b) :
    0 < 1 - |2 * lightQ r g b - 1| := by
  have h0 := cminQ_nonneg r g b h0r h0g h0b
  have h1 := cmaxQ_le_one r g b h1r h1g h1b
  unfold chromQ at hc
  have habs : |2 * lightQ r g b - 1| < 1 := by
    unfold lightQ
    rw [show 2 * ((cmaxQ r g b + cminQ r g b) / 2) - 1 = cmaxQ r g b + cminQ r g b - 1
      by ring]
    rw [abs_lt]
    constructor <;> linarith
  linarith

/-- C10: for every achromatic byte triple `r = g = b` the chroma computed by
`rgb_to_hsl` is zero and the hue branch divides by it, so the returned hue
is NaN; additionally at `r = g = b = 255` the saturation denominator is zero
as well, so the returned saturation is NaN too. -/
theorem achromatic_rgb_to_hsl_nan :
    (∀ v : ℕ, chromaOf v v v = some 0 ∧ (rgb_to_hsl v v v).1 = none)
    ∧ (rgb_to_hsl 255 255 255).2.1 = none
    ∧ satDenomOf 255 255 255 = some 0 := by
  have h255 : (255 : ℚ) ≠ 0 := by norm_num
  refine ⟨fun v => ⟨?_, ?_⟩, ?_, ?_⟩
  · simp [chromaOf, Fdiv_some _ _ h255, FmaxU, FminU, Fsub]
  · simp [rgb_to_hsl, Fdiv_some _ _ h255, FmaxU, FminU, Feq, Fsub, Fdiv, FfmodI, Fmul]
  · norm_num [rgb_to_hsl, Fdiv_some _ _ h255, FmaxU, FminU, Feq, Fadd, Fsub, Fdiv,
      FfmodI, Fmul, Fabs]
  · norm_num [satDenomOf, rgb_to_hsl, Fdiv_some _ _ h255, FmaxU, FminU, Feq, Fadd,
      Fsub, Fdiv, FfmodI, Fmul, Fabs]

lemma pi32_pos : 0 < pi32 := by norm_num [pi32]

lemma twoPi32_pos : (0 : ℚ) < 2 * pi32 := by norm_num [pi32]

lemma degQ60_ne : degQ 60 ≠ 0 := by norm_num [degQ, pi32]

/-- The hue stored by `hsla` on a non-NaN hue argument, in closed form. -/
lemma hsla_some_hue (q : ℚ) (s l a : F) :
    hsla (some q) s l a =
      Color.Hsla (some (q - 2 * pi32 * ⌊q / (2 * pi32)⌋)) s l a := by
  unfold hsla
  rw [Fdiv_some _ _ (ne_of_gt twoPi32_pos)]
  simp [Ffloor, Fmul, Fsub]

/-- `q - 2π·⌊q/(2π)⌋` lands in `[0, 2π)` for every rational `q`. -/
lemma norm_hue_bounds (q : ℚ) :
    0 ≤ q - 2 * pi32 * ⌊q / (2 * pi32)⌋
    ∧ q - 2 * pi32 * ⌊q / (2 * pi32)⌋ < 2 * pi32 := by
  have hP : (0 : ℚ) < 2 * pi32 := twoPi32_pos
  have he : q - 2 * pi32 * ⌊q / (2 * pi32)⌋
      = (2 * pi32) * Int.fract (q / (2 * pi32)) := by
    have h1 : q / (2 * pi32) * (2 * pi32) = q := div_mul_cancel₀ q (ne_of_gt hP)
    rw [Int.fract, mul_sub, mul_comm (2 * pi32) (q / (2 * pi32)), h1]
  constructor
  · rw [he]; exact mul_nonneg hP.le (Int.fract_nonneg _)
  · rw [he]
    calc (2 * pi32) * Int.fract (q / (2 * pi32)) < (2 * pi32) * 1 :=
          mul_lt_mul_of_pos_left (Int.fract_lt_one _) hP
      _ = 2 * pi32 := mul_one _

/-- The hue component stored in a `Color` (`Rgba` stores none). -/
def hueOfColor : Color → F
  | Color.Hsla h _ _ _ => h
  | Color.Rgba _ _ _ _ => none

/-- The claim's invariant: the stored hue is an actual number lying in
`[0, 2π)` (with the code's `f32` π constant). -/
def hueNormalized (c : Color) : Prop :=
  ∃ q : ℚ, hueOfColor c = some q ∧ 0 ≤ q ∧ q < 2 * pi32

/-- `hsla` normalizes every non-NaN hue into `[0, 2π)`. -/
lemma hsla_normalized (q : ℚ) (s l a : F) : hueNormalized (hsla (some q) s l a) := by
  rw [hsla_some_hue]
  exact ⟨_, rfl, norm_hue_bounds q⟩

/-- On a non-achromatic input the hue computed by `rgb_to_hsl` is an actual
number, given in terms of the rational mirror `hueQ`. -/
lemma rgb_to_hsl_hue_some (red green blue : ℕ)
    (hc : chromQ ((red : ℚ) / 255) ((green : ℚ) / 255) ((blue : ℚ) / 255) ≠ 0) :
    (rgb_to_hsl red green blue).1 =
      some (hueQ ((red : ℚ) / 255) ((green : ℚ) / 255) ((blue : ℚ) / 255)) := by
  have h255 : (255 : ℚ) ≠ 0 := by norm_num
  unfold chromQ cmaxQ cminQ at hc
  unfold rgb_to_hsl hueQ chromQ cmaxQ cminQ
  dsimp only
  rw [Fdiv_some _ _ h255, Fdiv_some _ _ h255, Fdiv_some _ _ h255,
    FmaxU_some, FmaxU_some, FminU_some, FminU_some]
  simp only [Feq, Fsub, Fadd, Fmul, FfmodI, decide_eq_true_eq]
  split_ifs with h1 h2 <;>
    simp [Fdiv_some _ _ hc, FfmodI, Fmul, Fadd]

/-- C6 (amended): `hsla` and `hsl` store a hue normalized into `[0, 2π)` for
every finite hue argument; `complement` does so on every `Hsla` color with a
finite stored hue and on every non-achromatic `Rgba` color.  (On an
achromatic `Rgba` color the hue entering the normalization is already NaN
and stays NaN — see `complement_achromatic_hue_nan`.) -/
theorem hue_normalization (q : ℚ) (s l a : F) (red green blue : ℕ) (a' : F) :
    hueNormalized (hsla (some q) s l a)
    ∧ hueNormalized (hsl (some q) s l)
    ∧ hueNormalized (complement (Color.Hsla (some q) s l a))
    ∧ (¬(red = green ∧ green = blue) →
        hueNormalized (complement (Color.Rgba red green blue a'))) := by
  refine ⟨hsla_normalized q s l a, hsla_normalized q s l (some 1), ?_, ?_⟩
  · show hueNormalized (hsla (Fadd (some q) (some (degQ 180))) s l a)
    rw [show Fadd (some q) (some (degQ 180)) = some (q + degQ 180) from rfl]
    exact hsla_normalized _ s l a
  · intro hne
    have hinj : ∀ m n : ℕ, ((m : ℚ) / 255 = (n : ℚ) / 255) → m = n := by
      intro m n h
      have h' : (m : ℚ) = n := by
        field_simp at h
        exact_mod_cast h
      exact_mod_cast h'
    have hne' : ¬(((red : ℚ) / 255 = (green : ℚ) / 255)
        ∧ ((green : ℚ) / 255 = (blue : ℚ) / 255)) := by
      rintro ⟨h1, h2⟩
      exact hne ⟨hinj _ _ h1, hinj _ _ h2⟩
    have hc := (chromQ_pos _ _ _ hne').ne'
    show hueNormalized
      (hsla (Fadd (rgb_to_hsl red green blue).1 (some (degQ 180)))
        (rgb_to_hsl red green blue).2.1 (rgb_to_hsl red green blue).2.2 a')
    rw [rgb_to_hsl_hue_some red green blue hc]
    rw [show Fadd (some (hueQ ((red : ℚ) / 255) ((green : ℚ) / 255) ((blue : ℚ) / 255)))
        (some (degQ 180))
      = some (hueQ ((red : ℚ) / 255) ((green : ℚ) / 255) ((blue : ℚ) / 255) + degQ 180)
      from rfl]
    exact hsla_normalized _ _ _ a'

/-- Witness for `hue_normalization`: the non-achromatic byte triple
`(1, 2, 3)` (and hue argument `-1`). -/
theorem hue_normalization_witness :
    (¬((1 : ℕ) = 2 ∧ (2 : ℕ) = 3))
    ∧ hueNormalized (hsla (some (-1)) none none none)
    ∧ hueNormalized (complement (Color.Rgba 1 2 3 (some 1))) :=
  ⟨by decide, (hue_normalization (-1) none none none 1 2 3 (some 1)).1,
    (hue_normalization (-1) none none none 1 2 3 (some 1)).2.2.2 (by decide)⟩

/-- C6 (counterexample to the claim as stated): `complement` on the
achromatic color `Rgba(100, 100, 100, 1.0)` produces a color whose stored
hue is NaN, not a number in `[0, 2π)` — `rgb_to_hsl` hands `hsla` a NaN hue
and the normalization keeps it NaN. -/
theorem complement_achromatic_hue_nan :
    ¬ hueNormalized (complement (Color.Rgba 100 100 100 (some 1))) := by
  intro hcontra
  obtain ⟨q, hq, _, _⟩ := hcontra
  have h255 : (255 : ℚ) ≠ 0 := by norm_num
  have hnone : hueOfColor (complement (Color.Rgba 100 100 100 (some 1))) = none := by
    simp [complement, rgb_to_hsl, hsla, hueOfColor, Fdiv_some _ _ h255, FmaxU, FminU,
      Feq, Fsub, Fdiv, FfmodI, Fmul, Fadd, Ffloor]
  rw [hnone] at hq
  exact Option.noConfusion hq

/-! ### The RGB→HSL→RGB round trip -/

lemma floor_eq_of (q : ℚ) (k : ℤ) (h1 : (k : ℚ) ≤ q) (h2 : q < k + 1) : ⌊q⌋ = k := by
  rw [Int.floor_eq_iff]
  exact ⟨h1, by exact_mod_cast h2⟩

/-- Evaluate `utils::fmod` once the integer part of the argument is known. -/
lemma fmodQ_eval (q : ℚ) (k n : ℤ) (h1 : (k : ℚ) ≤ q) (h2 : q < k + 1) :
    fmodQ q n = (moduloZ k n : ℚ) + q - k := by
  unfold fmodQ
  rw [floor_eq_of q k h1 h2]

/-- On non-NaN inputs `hsl_to_rgb` agrees with the pure-rational mirror. -/
lemma hsl_to_rgb_some (h s l : ℚ) :
    hsl_to_rgb (some h) (some s) (some l) =
      (some (hsl_to_rgbQ h s l).1, some (hsl_to_rgbQ h s l).2.1,
       some (hsl_to_rgbQ h s l).2.2) := by
  have hD := degQ60_ne
  have h2 : (2 : ℚ) ≠ 0 := by norm_num
  unfold hsl_to_rgb hsl_to_rgbQ
  dsimp only
  rw [Fdiv_some _ _ hD]
  simp only [Fmul, Fsub, Fabs, FfmodI, Flt, decide_eq_true_eq]
  rw [Fdiv_some _ _ h2]
  split_ifs <;> simp [Fadd]

/-- On a non-achromatic byte triple (and a nonzero saturation denominator)
`rgb_to_hsl` agrees with the pure-rational mirror. -/
lemma rgb_to_hsl_eq_some (red green blue : ℕ)
    (hc : chromQ ((red : ℚ) / 255) ((green : ℚ) / 255) ((blue : ℚ) / 255) ≠ 0)
    (hden : 1 - |2 * lightQ ((red : ℚ) / 255) ((green : ℚ) / 255) ((blue : ℚ) / 255) - 1| ≠ 0) :
    rgb_to_hsl red green blue =
      (some (hueQ ((red : ℚ) / 255) ((green : ℚ) / 255) ((blue : ℚ) / 255)),
       some (satQ ((red : ℚ) / 255) ((green : ℚ) / 255) ((blue : ℚ) / 255)),
       some (lightQ ((red : ℚ) / 255) ((green : ℚ) / 255) ((blue : ℚ) / 255))) := by
  have h255 : (255 : ℚ) ≠ 0 := by norm_num
  have h2 : (2 : ℚ) ≠ 0 := by norm_num
  unfold chromQ cmaxQ cminQ at hc
  unfold lightQ cmaxQ cminQ at hden
  unfold rgb_to_hsl hueQ satQ lightQ chromQ cmaxQ cminQ
  dsimp only
  rw [Fdiv_some _ _ h255, Fdiv_some _ _ h255, Fdiv_some _ _ h255,
    FmaxU_some, FmaxU_some, FminU_some, FminU_some]
  simp only [Fadd, Fsub, Fmul, Fabs]
  rw [Fdiv_some _ _ h2]
  simp only [Fmul, Fsub, Fabs]
  rw [Fdiv_some _ _ hc, Fdiv_some _ _ hc, Fdiv_some _ _ hc, Fdiv_some _ _ hden]
  simp only [Feq, FfmodI, Fadd, Fmul, decide_eq_true_eq]
  split_ifs <;> rfl

lemma cmaxQ_cases (r g b : ℚ) :
    cmaxQ r g b = r ∨ cmaxQ r g b = g ∨ cmaxQ r g b = b := by
  rw [cmaxQ_eq]
  rcases max_choice (max r g) b with h | h
  · rcases max_choice r g with h' | h'
    · left; rw [h, h']
    · right; left; rw [h, h']
  · right; right; exact h

lemma mul_div_self_eq (c a : ℚ) (hcne : c ≠ 0) : c * (a / c) = a := by
  field_simp

/-- The heart of C5: on channels in `[0, 1]`, not all equal, the
HSL→RGB conversion inverts RGB→HSL exactly (pure-rational mirrors). -/
theorem roundtripQ (r g b : ℚ) (h0r : 0 ≤ r) (h1r : r ≤ 1) (h0g : 0 ≤ g)
    (h1g : g ≤ 1) (h0b : 0 ≤ b) (h1b : b ≤ 1) (hne : ¬(r = g ∧ g = b)) :
    hsl_to_rgbQ (hueQ r g b) (satQ r g b) (lightQ r g b) = (r, g, b) := by
  have hc : 0 < chromQ r g b := chromQ_pos r g b hne
  have hch : chromQ r g b = cmaxQ r g b - cminQ r g b := rfl
  have hcpos : 0 < cmaxQ r g b - cminQ r g b := by rw [← hch]; exact hc
  have hcne : cmaxQ r g b - cminQ r g b ≠ 0 := ne_of_gt hcpos
  have hdenpos : 0 < 1 - |2 * lightQ r g b - 1| :=
    satDenom_pos r g b h0r h0g h0b h1r h1g h1b hc
  have hdenne : 1 - |2 * lightQ r g b - 1| ≠ 0 := ne_of_gt hdenpos
  have hlne : lightQ r g b ≠ 0 := (lightQ_pos r g b h0r h0g h0b hc).ne'
  have hsatval : satQ r g b
      = (cmaxQ r g b - cminQ r g b) / (1 - |2 * lightQ r g b - 1|) := by
    unfold satQ
    rw [if_neg hlne, hch]
  have hchroma : (1 - |2 * lightQ r g b - 1|) * satQ r g b
      = cmaxQ r g b - cminQ r g b := by
    rw [hsatval, mul_comm, div_mul_cancel₀ _ hdenne]
  have hmprime : lightQ r g b - (cmaxQ r g b - cminQ r g b) / 2 = cminQ r g b := by
    unfold lightQ
    ring
  have hMr := le_cmaxQ_left r g b
  have hMg := le_cmaxQ_mid r g b
  have hMb := le_cmaxQ_right r g b
  by_cases hbr : cmaxQ r g b = r
  · -- the red channel is the maximum
    have hgle : g ≤ r := hbr ▸ hMg
    have hm2 : cminQ r g b = min g b := by rw [cminQ_eq, min_eq_right hgle]
    have hhue : hueQ r g b
        = degQ 60 * fmodQ ((g - b) / (cmaxQ r g b - cminQ r g b)) 6 := by
      unfold hueQ
      rw [if_pos hbr, hch]
    set t := (g - b) / (cmaxQ r g b - cminQ r g b) with htdef
    by_cases hgb : b ≤ g
    · -- the blue channel is the minimum; sector in [0, 1]
      have hmEqb : cminQ r g b = b := by rw [hm2, min_eq_right hgb]
      have ht0 : 0 ≤ t := div_nonneg (by linarith) hcpos.le
      have ht1 : t ≤ 1 := by
        rw [htdef, div_le_one hcpos]
        linarith
      by_cases htlt : t < 1
      · have hfm6 : fmodQ t 6 = t := by
          rw [fmodQ_eval t 0 6 (by exact_mod_cast ht0) (by push_cast; linarith)]
          simp [show moduloZ 0 6 = 0 from by decide]
        have hfm2 : fmodQ t 2 = t := by
          rw [fmodQ_eval t 0 2 (by exact_mod_cast ht0) (by push_cast; linarith)]
          simp [show moduloZ 0 2 = 0 from by decide]
        have habs : |t - 1| = 1 - t := by
          rw [abs_of_nonpos (by linarith)]; ring
        have hxv : (cmaxQ r g b - cminQ r g b) * (1 - (1 - t)) = g - b := by
          rw [show (1 : ℚ) - (1 - t) = t from by ring, htdef]
          exact mul_div_self_eq _ _ hcne
        unfold hsl_to_rgbQ
        dsimp only
        rw [hhue, mul_div_cancel_left₀ _ degQ60_ne, hfm6, hchroma]
        rw [if_neg (not_lt.mpr ht0), if_pos htlt]
        rw [hfm2, habs, hxv]
        simp only [Prod.mk.injEq]
        refine ⟨?_, ?_, ?_⟩ <;> linarith [hmprime]
      · -- sector exactly 1 (g = max too)
        have hteq : t = 1 := le_antisymm ht1 (not_lt.mp htlt)
        have hgb2 : g - b = cmaxQ r g b - cminQ r g b := by
          have h := hteq
          rw [htdef] at h
          exact (div_eq_one_iff_eq hcne).mp h
        have hfm6 : fmodQ t 6 = 1 := by
          rw [hteq, fmodQ_eval 1 1 6 (by norm_num) (by norm_num)]
          simp [show moduloZ 1 6 = 1 from by decide]
        have hfm2 : fmodQ (1 : ℚ) 2 = 1 := by
          rw [fmodQ_eval 1 1 2 (by norm_num) (by norm_num)]
          simp [show moduloZ 1 2 = 1 from by decide]
        unfold hsl_to_rgbQ
        dsimp only
        rw [hhue, mul_div_cancel_left₀ _ degQ60_ne, hfm6, hchroma]
        rw [if_neg (by norm_num : ¬((1 : ℚ) < 0)), if_neg (by norm_num : ¬((1 : ℚ) < 1)),
          if_pos (by norm_num : (1 : ℚ) < 2)]
        rw [hfm2]
        rw [show |(1 : ℚ) - 1| = 0 from by norm_num, sub_zero, mul_one]
        simp only [Prod.mk.injEq]
        refine ⟨?_, ?_, ?_⟩ <;> linarith [hmprime]
    · -- the green channel is the minimum; sector in [5, 6)
      push_neg at hgb
      have hmEqg : cminQ r g b = g := by rw [hm2, min_eq_left hgb.le]
      have htneg : t < 0 := div_neg_of_neg_of_pos (by linarith) hcpos
      have htm1 : -1 ≤ t := by
        rw [htdef, le_div_iff₀ hcpos]
        linarith
      have hfm6 : fmodQ t 6 = 6 + t := by
        rw [fmodQ_eval t (-1) 6 (by push_cast; linarith) (by push_cast; linarith)]
        rw [show moduloZ (-1) 6 = 5 from by decide]
        push_cast
        ring
      have hfm2 : fmodQ (6 + t) 2 = 2 + t := by
        rw [fmodQ_eval (6 + t) 5 2 (by push_cast; linarith) (by push_cast; linarith)]
        rw [show moduloZ 5 2 = 1 from by decide]
        push_cast
        ring
      have habs : |2 + t - 1| = 1 + t := by
        rw [abs_of_nonneg (by linarith)]; ring
      have hxv : (cmaxQ r g b - cminQ r g b) * (1 - (1 + t)) = b - g := by
        rw [show (1 : ℚ) - (1 + t) = -t from by ring, htdef, mul_neg,
          mul_div_self_eq _ _ hcne]
        ring
      unfold hsl_to_rgbQ
      dsimp only
      rw [hhue, mul_div_cancel_left₀ _ degQ60_ne, hfm6, hchroma]
      rw [if_neg (by linarith : ¬(6 + t < 0)), if_neg (by linarith : ¬(6 + t < 1)),
        if_neg (by linarith : ¬(6 + t < 2)), if_neg (by linarith : ¬(6 + t < 3)),
        if_neg (by linarith : ¬(6 + t < 4)), if_neg (by linarith : ¬(6 + t < 5)),
        if_pos (by linarith : 6 + t < 6)]
      rw [hfm2, habs, hxv]
      simp only [Prod.mk.injEq]
      refine ⟨?_, ?_, ?_⟩ <;> linarith [hmprime]
  · by_cases hbg : cmaxQ r g b = g
    · -- the green channel is the strict maximum
      have hrg : r < cmaxQ r g b := lt_of_le_of_ne hMr (fun h => hbr h.symm)
      have hm2 : cminQ r g b = min r b := by
        rw [cminQ_eq, min_eq_left (by rw [← hbg]; exact hrg.le : r ≤ g)]
      have hhue : hueQ r g b
          = degQ 60 * ((b - r) / (cmaxQ r g b - cminQ r g b) + 2) := by
        unfold hueQ
        rw [if_neg hbr, if_pos hbg, hch]
      set u := (b - r) / (cmaxQ r g b - cminQ r g b) with hudef
      by_cases hrb : r ≤ b
      · -- the red channel is the minimum; sector in [2, 3]
        have hmEqr : cminQ r g b = r := by rw [hm2, min_eq_left hrb]
        have hu0 : 0 ≤ u := div_nonneg (by linarith) hcpos.le
        have hu1 : u ≤ 1 := by
          rw [hudef, div_le_one hcpos]
          linarith
        by_cases hult : u < 1
        · have hfm2 : fmodQ (u + 2) 2 = u := by
            rw [fmodQ_eval (u + 2) 2 2 (by push_cast; linarith) (by push_cast; linarith)]
            rw [show moduloZ 2 2 = 0 from by decide]
            push_cast
            ring
          have habs : |u - 1| = 1 - u := by
            rw [abs_of_nonpos (by linarith)]; ring
          have hxv : (cmaxQ r g b - cminQ r g b) * (1 - (1 - u)) = b - r := by
            rw [show (1 : ℚ) - (1 - u) = u from by ring, hudef]
            exact mul_div_self_eq _ _ hcne
          unfold hsl_to_rgbQ
          dsimp only
          rw [hhue, mul_div_cancel_left₀ _ degQ60_ne, hchroma]
          rw [if_neg (by linarith : ¬(u + 2 < 0)), if_neg (by linarith : ¬(u + 2 < 1)),
            if_neg (by linarith : ¬(u + 2 < 2)), if_pos (by linarith : u + 2 < 3)]
          rw [hfm2, habs, hxv]
          simp only [Prod.mk.injEq]
          refine ⟨?_, ?_, ?_⟩ <;> linarith [hmprime]
        · -- sector exactly 3 (b = max too)
          have hueq : u = 1 := le_antisymm hu1 (not_lt.mp hult)
          have hbr2 : b - r = cmaxQ r g b - cminQ r g b := by
            have h := hueq
            rw [hudef] at h
            exact (div_eq_one_iff_eq hcne).mp h
          have hfm2 : fmodQ ((1 : ℚ) + 2) 2 = 1 := by
            rw [fmodQ_eval (1 + 2) 3 2 (by norm_num) (by norm_num)]
            rw [show moduloZ 3 2 = 1 from by decide]
            push_cast
            ring
          unfold hsl_to_rgbQ
          dsimp only
          rw [hhue, mul_div_cancel_left₀ _ degQ60_ne, hueq, hchroma]
          rw [if_neg (by norm_num : ¬((1 : ℚ) + 2 < 0)),
            if_neg (by norm_num : ¬((1 : ℚ) + 2 < 1)),
            if_neg (by norm_num : ¬((1 : ℚ) + 2 < 2)),
            if_neg (by norm_num : ¬((1 : ℚ) + 2 < 3)),
            if_pos (by norm_num : (1 : ℚ) + 2 < 4)]
          rw [hfm2]
          rw [show |(1 : ℚ) - 1| = 0 from by norm_num, sub_zero, mul_one]
          simp only [Prod.mk.injEq]
          refine ⟨?_, ?_, ?_⟩ <;> linarith [hmprime]
      · -- the blue channel is the minimum; sector in (1, 2)
        push_neg at hrb
        have hmEqb : cminQ r g b = b := by rw [hm2, min_eq_right hrb.le]
        have hun : u < 0 := div_neg_of_neg_of_pos (by linarith) hcpos
        have hum1 : -1 < u := by
          rw [hudef, lt_div_iff₀ hcpos]
          linarith
        have hfm2 : fmodQ (u + 2) 2 = u + 2 := by
          rw [fmodQ_eval (u + 2) 1 2 (by push_cast; linarith) (by push_cast; linarith)]
          rw [show moduloZ 1 2 = 1 from by decide]
          push_cast
          ring
        have habs : |u + 2 - 1| = u + 1 := by
          rw [abs_of_nonneg (by linarith)]; ring
        have hxv : (cmaxQ r g b - cminQ r g b) * (1 - (u + 1)) = r - b := by
          rw [show (1 : ℚ) - (u + 1) = -u from by ring, hudef, mul_neg,
            mul_div_self_eq _ _ hcne]
          ring
        unfold hsl_to_rgbQ
        dsimp only
        rw [hhue, mul_div_cancel_left₀ _ degQ60_ne, hchroma]
        rw [if_neg (by linarith : ¬(u + 2 < 0)), if_neg (by linarith : ¬(u + 2 < 1)),
          if_pos (by linarith : u + 2 < 2)]
        rw [hfm2, habs, hxv]
        simp only [Prod.mk.injEq]
        refine ⟨?_, ?_, ?_⟩ <;> linarith [hmprime]
    · -- the blue channel is the strict maximum
      have hbmax : cmaxQ r g b = b := by
        rcases cmaxQ_cases r g b with h | h | h
        · exact absurd h hbr
        · exact absurd h hbg
        · exact h
      have hrM : r < cmaxQ r g b := lt_of_le_of_ne hMr (fun h => hbr h.symm)
      have hgM : g < cmaxQ r g b := lt_of_le_of_ne hMg (fun h => hbg h.symm)
      have hm2 : cminQ r g b = min r g := by
        rw [cminQ_eq,
          min_eq_left (le_trans (min_le_left r g) (by linarith : r ≤ b))]
      have hhue : hueQ r g b
          = degQ 60 * ((r - g) / (cmaxQ r g b - cminQ r g b) + 4) := by
        unfold hueQ
        rw [if_neg hbr, if_neg hbg, hch]
      set v := (r - g) / (cmaxQ r g b - cminQ r g b) with hvdef
      by_cases hgr : g ≤ r
      · -- the green channel is the minimum; sector in [4, 5)
        have hmEqg : cminQ r g b = g := by rw [hm2, min_eq_right hgr]
        have hv0 : 0 ≤ v := div_nonneg (by linarith) hcpos.le
        have hv1 : v < 1 := by
          rw [hvdef, div_lt_one hcpos]
          linarith
        have hfm2 : fmodQ (v + 4) 2 = v := by
          rw [fmodQ_eval (v + 4) 4 2 (by push_cast; linarith) (by push_cast; linarith)]
          rw [show moduloZ 4 2 = 0 from by decide]
          push_cast
          ring
        have habs : |v - 1| = 1 - v := by
          rw [abs_of_nonpos (by linarith)]; ring
        have hxv : (cmaxQ r g b - cminQ r g b) * (1 - (1 - v)) = r - g := by
          rw [show (1 : ℚ) - (1 - v) = v from by ring, hvdef]
          exact mul_div_self_eq _ _ hcne
        unfold hsl_to_rgbQ
        dsimp only
        rw [hhue, mul_div_cancel_left₀ _ degQ60_ne, hchroma]
        rw [if_neg (by linarith : ¬(v + 4 < 0)), if_neg (by linarith : ¬(v + 4 < 1)),
          if_neg (by linarith : ¬(v + 4 < 2)), if_neg (by linarith : ¬(v + 4 < 3)),
          if_neg (by linarith : ¬(v + 4 < 4)), if_pos (by linarith : v + 4 < 5)]
        rw [hfm2, habs, hxv]
        simp only [Prod.mk.injEq]
        refine ⟨?_, ?_, ?_⟩ <;> linarith [hmprime]
      · -- the red channel is the minimum; sector in (3, 4)
        push_neg at hgr
        have hmEqr : cminQ r g b = r := by rw [hm2, min_eq_left hgr.le]
        have hvn : v < 0 := div_neg_of_neg_of_pos (by linarith) hcpos
        have hvm1 : -1 < v := by
          rw [hvdef, lt_div_iff₀ hcpos]
          linarith
        have hfm2 : fmodQ (v + 4) 2 = v + 2 := by
          rw [fmodQ_eval (v + 4) 3 2 (by push_cast; linarith) (by push_cast; linarith)]
          rw [show moduloZ 3 2 = 1 from by decide]
          push_cast
          ring
        have habs : |v + 2 - 1| = v + 1 := by
          rw [abs_of_nonneg (by linarith)]; ring
        have hxv : (cmaxQ r g b - cminQ r g b) * (1 - (v + 1)) = g - r := by
          rw [show (1 : ℚ) - (v + 1) = -v from by ring, hvdef, mul_neg,
            mul_div_self_eq _ _ hcne]
          ring
        unfold hsl_to_rgbQ
        dsimp only
        rw [hhue, mul_div_cancel_left₀ _ degQ60_ne, hchroma]
        rw [if_neg (by linarith : ¬(v + 4 < 0)), if_neg (by linarith : ¬(v + 4 < 1)),
          if_neg (by linarith : ¬(v + 4 < 2)), if_neg (by linarith : ¬(v + 4 < 3)),
          if_pos (by linarith : v + 4 < 4)]
        rw [hfm2, habs, hxv]
        simp only [Prod.mk.injEq]
        refine ⟨?_, ?_, ?_⟩ <;> linarith [hmprime]

/-- `(255.0 * (n/255)).round() as u8` gives back the byte `n`. -/
lemma roundByte_natCast (n : ℕ) (hn : n ≤ 255) : roundByte (some (n : ℚ)) = n := by
  unfold roundByte rustRound
  dsimp only
  rw [if_pos (by positivity : (0 : ℚ) ≤ (n : ℚ))]
  rw [floor_eq_of ((n : ℚ) + 1/2) n (by push_cast; linarith) (by push_cast; norm_num)]
  rw [if_neg (not_lt.mpr (Int.natCast_nonneg n))]
  rw [if_neg (by exact_mod_cast not_lt.mpr hn : ¬((255 : ℤ) < (n : ℤ)))]
  exact Int.toNat_natCast n

/-- The achromatic round trip below white: NaN hue falls through every
sector guard to `(0, 0, 0)`, the chroma is `0`, and the lightness offset `m`
restores the gray level exactly. -/
lemma roundTrip_achromatic (v : ℕ) (hv : v ≤ 254) : roundTripRgb v v v = (v, v, v) := by
  have h255 : (255 : ℚ) ≠ 0 := by norm_num
  have hq0 : 0 ≤ (v : ℚ) / 255 := by positivity
  have hq1 : (v : ℚ) / 255 < 1 := by
    rw [div_lt_one (by norm_num : (0 : ℚ) < 255)]
    exact_mod_cast lt_of_le_of_lt hv (by norm_num : (254 : ℕ) < 255)
  have hsat : (if Feq (some ((v : ℚ) / 255)) (some 0) = true then (some 0 : F)
      else Fdiv (some 0)
        (Fsub (some 1) (Fabs (Fsub (Fmul (some 2) (some ((v : ℚ) / 255))) (some 1)))))
      = some 0 := by
    by_cases hq : (v : ℚ) / 255 = 0
    · rw [if_pos (by simp [Feq, hq])]
    · rw [if_neg (by simp [Feq, hq])]
      have hqpos : 0 < (v : ℚ) / 255 := lt_of_le_of_ne hq0 (Ne.symm hq)
      have hden : (1 : ℚ) - |2 * ((v : ℚ) / 255) - 1| ≠ 0 := by
        have : |2 * ((v : ℚ) / 255) - 1| < 1 := abs_lt.mpr ⟨by linarith, by linarith⟩
        linarith
      simp only [Fmul_some, Fsub_some, Fabs_some]
      rw [Fdiv_some _ _ hden]
      rw [zero_div]
  have hhsl : rgb_to_hsl v v v = (none, some 0, some ((v : ℚ) / 255)) := by
    unfold rgb_to_hsl
    dsimp only
    rw [Fdiv_some _ _ h255]
    rw [FmaxU_self, FmaxU_self, FminU_self, FminU_self]
    simp only [Fsub_some, Fadd_some, sub_self]
    rw [Fdiv_some _ _ (by norm_num : (2 : ℚ) ≠ 0)]
    rw [show ((v : ℚ) / 255 + (v : ℚ) / 255) / 2 = (v : ℚ) / 255 from by ring]
    rw [if_pos (by simp [Feq] : Feq (some ((v : ℚ) / 255)) (some ((v : ℚ) / 255)) = true)]
    rw [show Fdiv (some (0 : ℚ)) (some (0 : ℚ)) = none from by simp [Fdiv]]
    rw [FfmodI_none, Fmul_none_right]
    rw [hsat]
  have hrgb : hsl_to_rgb none (some 0) (some ((v : ℚ) / 255))
      = (some ((v : ℚ) / 255), some ((v : ℚ) / 255), some ((v : ℚ) / 255)) := by
    unfold hsl_to_rgb
    dsimp only
    rw [Fdiv_none_left, FfmodI_none]
    simp only [Fmul_some, Fsub_some, Fabs_some]
    rw [Fsub_none_left, Fabs_none, Fsub_none_right, Fmul_none_right]
    rw [if_neg (Flt_none_not _), if_neg (Flt_none_not _), if_neg (Flt_none_not _),
      if_neg (Flt_none_not _), if_neg (Flt_none_not _), if_neg (Flt_none_not _),
      if_neg (Flt_none_not _)]
    rw [mul_zero]
    rw [Fdiv_some _ _ (by norm_num : (2 : ℚ) ≠ 0), zero_div]
    simp only [Fsub_some, Fadd_some, sub_zero, zero_add]
  unfold roundTripRgb
  rw [hhsl]
  dsimp only
  rw [hrgb]
  dsimp only
  simp only [Fmul]
  rw [mul_div_self_eq 255 (v : ℚ) h255]
  rw [roundByte_natCast v (by omega)]

lemma div255_le_one (n : ℕ) (hn : n ≤ 255) : (n : ℚ) / 255 ≤ 1 := by
  rw [div_le_one (by norm_num : (0 : ℚ) < 255)]
  exact_mod_cast hn

lemma div255_inj (m n : ℕ) (h : (m : ℚ) / 255 = (n : ℚ) / 255) : m = n := by
  have h' : (m : ℚ) = n := by
    field_simp at h
    exact_mod_cast h
  exact_mod_cast h'

/-- C5 (amended): for every byte triple other than pure white, the
RGB→HSL→RGB round trip of `rgb_to_hsl`/`hsl_to_rgb` followed by
`Color::to_rgb`'s byte rounding reproduces the original bytes exactly (in
the exact-arithmetic model of `f32`) — in particular within ±1 per channel.
Pure white `(255, 255, 255)` is excluded: there the saturation is computed
as `0/0` (NaN) and the round trip collapses to NaN channels — see
`rgb_hsl_roundtrip_fails_white`. -/
theorem rgb_hsl_roundtrip_exact (red green blue : ℕ)
    (hr : red ≤ 255) (hg : green ≤ 255) (hb : blue ≤ 255)
    (hw : ¬(red = 255 ∧ green = 255 ∧ blue = 255)) :
    roundTripRgb red green blue = (red, green, blue) := by
  by_cases hach : red = green ∧ green = blue
  · obtain ⟨h1, h2⟩ := hach
    subst h2
    subst h1
    exact roundTrip_achromatic red (by omega)
  · have hneQ : ¬((red : ℚ) / 255 = (green : ℚ) / 255
        ∧ (green : ℚ) / 255 = (blue : ℚ) / 255) := by
      rintro ⟨h1, h2⟩
      exact hach ⟨div255_inj _ _ h1, div255_inj _ _ h2⟩
    have hcQ : 0 < chromQ ((red : ℚ) / 255) ((green : ℚ) / 255) ((blue : ℚ) / 255) :=
      chromQ_pos _ _ _ hneQ
    have h0r : 0 ≤ (red : ℚ) / 255 := by positivity
    have h0g : 0 ≤ (green : ℚ) / 255 := by positivity
    have h0b : 0 ≤ (blue : ℚ) / 255 := by positivity
    have h1r := div255_le_one red hr
    have h1g := div255_le_one green hg
    have h1b := div255_le_one blue hb
    have hdenQ := satDenom_pos _ _ _ h0r h0g h0b h1r h1g h1b hcQ
    unfold roundTripRgb
    rw [rgb_to_hsl_eq_some red green blue (ne_of_gt hcQ) (ne_of_gt hdenQ)]
    dsimp only
    rw [hsl_to_rgb_some]
    dsimp only
    rw [roundtripQ _ _ _ h0r h1r h0g h1g h0b h1b hneQ]
    dsimp only
    simp only [Fmul]
    rw [mul_div_self_eq 255 (red : ℚ) (by norm_num),
      mul_div_self_eq 255 (green : ℚ) (by norm_num),
      mul_div_self_eq 255 (blue : ℚ) (by norm_num)]
    rw [roundByte_natCast red hr, roundByte_natCast green hg, roundByte_natCast blue hb]

/-- Witness for `rgb_hsl_roundtrip_exact`: the byte triple `(10, 20, 30)`. -/
theorem rgb_hsl_roundtrip_exact_witness :
    ((10 : ℕ) ≤ 255 ∧ (20 : ℕ) ≤ 255 ∧ (30 : ℕ) ≤ 255
      ∧ ¬((10 : ℕ) = 255 ∧ (20 : ℕ) = 255 ∧ (30 : ℕ) = 255))
    ∧ roundTripRgb 10 20 30 = (10, 20, 30) :=
  ⟨⟨by decide, by decide, by decide, by decide⟩,
   rgb_hsl_roundtrip_exact 10 20 30 (by decide) (by decide) (by decide) (by decide)⟩

/-- C5 (counterexample to the claim as stated over all 256³ triples): at
pure white the saturation is `0/0` (NaN), the round trip yields NaN
channels, the byte cast maps them to `0`, and `|0 - 255| > 1` — the
round-trip error at `(255, 255, 255)` is 255 per channel, not within ±1. -/
theorem rgb_hsl_roundtrip_fails_white :
    roundTripRgb 255 255 255 = (0, 0, 0)
    ∧ 1 < ((255 : ℤ) - ((roundTripRgb 255 255 255).1 : ℤ)).natAbs := by
  have h255 : (255 : ℚ) ≠ 0 := by norm_num
  have hone : ((255 : ℕ) : ℚ) / 255 = 1 := by norm_num
  have hhsl : rgb_to_hsl 255 255 255 = (none, none, some 1) := by
    unfold rgb_to_hsl
    dsimp only
    rw [Fdiv_some _ _ h255, hone]
    rw [FmaxU_self, FmaxU_self, FminU_self, FminU_self]
    simp only [Fsub_some, Fadd_some, sub_self]
    rw [Fdiv_some _ _ (by norm_num : (2 : ℚ) ≠ 0)]
    rw [show ((1 : ℚ) + 1) / 2 = 1 from by norm_num]
    rw [if_pos (by simp [Feq] : Feq (some (1 : ℚ)) (some (1 : ℚ)) = true)]
    rw [show Fdiv (some (0 : ℚ)) (some (0 : ℚ)) = none from by simp [Fdiv]]
    rw [FfmodI_none, Fmul_none_right]
    rw [if_neg (by simp [Feq] : ¬(Feq (some (1 : ℚ)) (some 0) = true))]
    simp only [Fmul_some, Fsub_some, Fabs_some]
    rw [show (1 : ℚ) - |2 * 1 - 1| = 0 from by norm_num]
    rw [show Fdiv (some (0 : ℚ)) (some (0 : ℚ)) = none from by simp [Fdiv]]
  have hrgb : hsl_to_rgb none none (some 1) = (none, none, none) := by
    unfold hsl_to_rgb
    dsimp only
    rw [Fdiv_none_left, FfmodI_none]
    simp only [Fmul_some, Fsub_some, Fabs_some]
    rw [Fmul_none_right]
    rw [Fsub_none_left, Fabs_none, Fsub_none_right, Fmul_none_left]
    rw [if_neg (Flt_none_not _), if_neg (Flt_none_not _), if_neg (Flt_none_not _),
      if_neg (Flt_none_not _), if_neg (Flt_none_not _), if_neg (Flt_none_not _),
      if_neg (Flt_none_not _)]
    rw [Fdiv_none_left, Fsub_none_right]
    rw [Fadd_none_right]
  constructor
  · unfold roundTripRgb
    rw [hhsl]
    dsimp only
    rw [hrgb]
    dsimp only
    rw [Fmul_none_right]
    rfl
  · unfold roundTripRgb
    rw [hhsl]
    dsimp only
    rw [hrgb]
    dsimp only
    rw [Fmul_none_right]
    decide

end Elmesque
